import Mathlib

/-!
Verification of the `parsed` parser-combinator library (Rust).

Shallow embedding of the repository's code:
* `src/stream.rs`  — cursor buffer `ByteStream` (bytes, read position, capacity);
* `src/matcher.rs` — the `Matcher` abstraction and its composition operators;
* `src/parser.rs`  — primitive parse steps (`single`, `exact`, `before`,
  `bytes`, `repeat`, ...);
* `src/http.rs`    — the HTTP/1.1 request grammar;
* `src/ws.rs`      — the WebSocket frame grammar and frame encoder.

Bytes are modelled as `Nat` (machine `u8` values are always < 256; casts in the
source are modelled with explicit `% 256` / `% 65536` / ... where they occur).
A Rust `Matcher<T>` mutates a `&mut ByteStream` and returns
`Result<T, MatchError>`; it is modelled as a state-passing function
`ByteStream → Except MatchError T × ByteStream`.
-/

namespace Parsed

/-- Saved read-position snapshot (`struct Mark` in `src/stream.rs`). -/
structure Mark where
  pos : Nat
  deriving Repr, DecidableEq

/-- `struct ByteStream { buf: Vec<u8>, pos: usize }` from `src/stream.rs`.
The `capacity` field models `buf.capacity()` of the underlying `Vec` (the
spare room that `put` checks before appending). -/
structure ByteStream where
  buf : List Nat
  capacity : Nat
  pos : Nat
  deriving Repr, DecidableEq

/-- `ByteStream::wrap`: own the bytes, `pos = 0`.  A `Vec` built from the
bytes has capacity at least its length; the model takes exactly the length. -/
def ByteStream.wrap (l : List Nat) : ByteStream :=
  { buf := l, capacity := l.length, pos := 0 }

/-- `ByteStream::with_capacity`: empty buffer with reserved room. -/
def ByteStream.with_capacity (n : Nat) : ByteStream :=
  { buf := [], capacity := n, pos := 0 }

/-- `ByteStream::len`. -/
def ByteStream.len (bs : ByteStream) : Nat := bs.buf.length

/-- `ByteStream::cap`: `buf.capacity() - buf.len()`. -/
def ByteStream.cap (bs : ByteStream) : Nat := bs.capacity - bs.buf.length

/-- `ByteStream::put`: append all bytes if the spare capacity suffices and
return how many bytes were appended, otherwise append nothing and return 0. -/
def ByteStream.put (bs : ByteStream) (v : List Nat) : Nat × ByteStream :=
  if v.length ≤ bs.cap then
    (v.length, { bs with buf := bs.buf ++ v })
  else
    (0, bs)

/-- Big-endian bytes of a `u16` (`write_u16` in `src/stream.rs`: the loop
stores `b & 0xFF` at index 1, shifts, then stores at index 0). -/
def write_u16 (b : Nat) : List Nat :=
  [(b % 65536) >>> 8 % 256, (b % 65536) % 256]

/-- Big-endian bytes of a `u32` (`write_u32` in `src/stream.rs`). -/
def write_u32 (b : Nat) : List Nat :=
  [(b % 4294967296) >>> 24 % 256, (b % 4294967296) >>> 16 % 256,
   (b % 4294967296) >>> 8 % 256, (b % 4294967296) % 256]

/-- Big-endian bytes of a `u64` (`write_u64` in `src/stream.rs`). -/
def write_u64 (b : Nat) : List Nat :=
  [(b % 18446744073709551616) >>> 56 % 256, (b % 18446744073709551616) >>> 48 % 256,
   (b % 18446744073709551616) >>> 40 % 256, (b % 18446744073709551616) >>> 32 % 256,
   (b % 18446744073709551616) >>> 24 % 256, (b % 18446744073709551616) >>> 16 % 256,
   (b % 18446744073709551616) >>> 8 % 256, (b % 18446744073709551616) % 256]

/-- `ByteStream::put_u8` (`self.put(&[b]) == 1`). -/
def ByteStream.put_u8 (bs : ByteStream) (b : Nat) : Bool × ByteStream :=
  let r := bs.put [b % 256]
  (r.1 == 1, r.2)

/-- `ByteStream::put_u16` — note the source compares the number of appended
bytes against `16`, not against `2`. -/
def ByteStream.put_u16 (bs : ByteStream) (b : Nat) : Bool × ByteStream :=
  let r := bs.put (write_u16 b)
  (r.1 == 16, r.2)

/-- `ByteStream::put_u32` — the source compares against `32`, not `4`. -/
def ByteStream.put_u32 (bs : ByteStream) (b : Nat) : Bool × ByteStream :=
  let r := bs.put (write_u32 b)
  (r.1 == 32, r.2)

/-- `ByteStream::put_u64` — the source compares against `64`, not `8`. -/
def ByteStream.put_u64 (bs : ByteStream) (b : Nat) : Bool × ByteStream :=
  let r := bs.put (write_u64 b)
  (r.1 == 64, r.2)

/-- The read loop of `ByteStream::get`: `for i in offset..(offset+n)
result.push(self.buf[i])`.  Indexing is modelled with `getD _ 0`; under the
guard of `get` every index is in bounds. -/
def getLoop (buf : List Nat) (offset : Nat) : Nat → List Nat
  | 0 => []
  | n + 1 => buf.getD offset 0 :: getLoop buf (offset + 1) n

/-- `ByteStream::get`: the next `n` bytes, advancing `pos` by `n`, but only
when `pos + n ≤ buf.len()`; otherwise `None` with the stream untouched. -/
def ByteStream.get (bs : ByteStream) (n : Nat) : Option (List Nat) × ByteStream :=
  if bs.pos + n ≤ bs.buf.length then
    (some (getLoop bs.buf bs.pos n), { bs with pos := bs.pos + n })
  else
    (none, bs)

/-- Big-endian fold of `read_u16` in `src/stream.rs`:
`v[0..2].iter().fold(0u16, |acc, b| (acc << 8) + (*b as u16))`. -/
def read_u16 (v : List Nat) : Nat :=
  (v.take 2).foldl (fun acc b => ((acc <<< 8) % 65536 + b % 256) % 65536) 0

/-- Big-endian fold of `read_u32` in `src/stream.rs`. -/
def read_u32 (v : List Nat) : Nat :=
  (v.take 4).foldl (fun acc b => ((acc <<< 8) % 4294967296 + b % 256) % 4294967296) 0

/-- Big-endian fold of `read_u64` in `src/stream.rs`. -/
def read_u64 (v : List Nat) : Nat :=
  (v.take 8).foldl
    (fun acc b => ((acc <<< 8) % 18446744073709551616 + b % 256) % 18446744073709551616) 0

/-- `ByteStream::get_u8` (`self.get(1).map(|v| v[0])`). -/
def ByteStream.get_u8 (bs : ByteStream) : Option Nat × ByteStream :=
  let r := bs.get 1
  (r.1.map (fun v => v.getD 0 0), r.2)

/-- `ByteStream::get_u16`. -/
def ByteStream.get_u16 (bs : ByteStream) : Option Nat × ByteStream :=
  let r := bs.get 2
  (r.1.map read_u16, r.2)

/-- `ByteStream::get_u32`. -/
def ByteStream.get_u32 (bs : ByteStream) : Option Nat × ByteStream :=
  let r := bs.get 4
  (r.1.map read_u32, r.2)

/-- `ByteStream::get_u64`. -/
def ByteStream.get_u64 (bs : ByteStream) : Option Nat × ByteStream :=
  let r := bs.get 8
  (r.1.map read_u64, r.2)

/-- `ByteStream::next` (`self.get(1).map(|ref v| v[0])`). -/
def ByteStream.next (bs : ByteStream) : Option Nat × ByteStream :=
  let r := bs.get 1
  (r.1.map (fun v => v.getD 0 0), r.2)

/-- `ByteStream::mark`. -/
def ByteStream.mark (bs : ByteStream) : Mark := { pos := bs.pos }

/-- `ByteStream::reset`: rewind to the mark, but only if the mark does not
lie ahead of the current position. -/
def ByteStream.reset (bs : ByteStream) (m : Mark) : ByteStream :=
  if m.pos ≤ bs.pos then { bs with pos := m.pos } else bs

/-- `ByteStream::clear` (`Vec::clear` keeps the capacity). -/
def ByteStream.clear (bs : ByteStream) : ByteStream :=
  { bs with buf := [], pos := 0 }

/-- `ByteStream::pull`: drop the bytes before `pos` and reset `pos` to 0,
preserving the capacity; no-op when `pos = 0` or the buffer is empty. -/
def ByteStream.pull (bs : ByteStream) : ByteStream :=
  if 0 < bs.pos ∧ 0 < bs.buf.length then
    { buf := bs.buf.drop bs.pos, capacity := bs.capacity, pos := 0 }
  else
    bs

/-- `Iterator::position` over a list: index of the first element satisfying
the predicate (used by `ByteStream::find_single`). -/
def position (p : Nat → Bool) : List Nat → Option Nat
  | [] => none
  | a :: l => if p a then some 0 else (position p l).map (· + 1)

/-- `ByteStream::find_single`: absolute index of the first byte at or after
`pos` satisfying the predicate. -/
def ByteStream.find_single (bs : ByteStream) (p : Nat → Bool) : Option Nat :=
  (position p (bs.buf.drop bs.pos)).map (· + bs.pos)

/-- `impl AsRef<[u8]> for ByteStream`: the bytes from `pos` to the end. -/
def ByteStream.as_ref (bs : ByteStream) : List Nat := bs.buf.drop bs.pos

/-- `MatchError` (`src/matcher.rs`).  The source stores a formatted message;
the model keeps the constructor arguments as the spec's tagged variant. -/
inductive MatchError where
  | unexpected (offset : Nat) (got : String) (expected : String)
  | not_found (offset : Nat) (chr : Nat)
  | over_capacity (offset : Nat) (available : Nat) (requested : Nat)
  deriving Repr, DecidableEq

/-- A `Matcher<T>` takes `&mut ByteStream` and returns `Result<T, MatchError>`;
modelled by explicit state passing.  On failure the stream may still have
advanced — atomicity is a property of individual combinators, not of the type. -/
def Matcher (α : Type) : Type :=
  ByteStream → Except MatchError α × ByteStream

/-- `unit(f)` (`src/matcher.rs`): succeed with `f()`, consuming nothing. -/
def unitM {α : Type} (f : Unit → α) : Matcher α :=
  fun bs => (Except.ok (f ()), bs)

/-- `then` / `Chain` (`src/matcher.rs`): run left then right, propagating the
first failure (no rewind — not atomic). -/
def thenM {α β : Type} (m : Matcher α) (n : Matcher β) : Matcher (α × β) :=
  fun bs =>
    match m bs with
    | (Except.ok t, bs₁) =>
      match n bs₁ with
      | (Except.ok u, bs₂) => (Except.ok (t, u), bs₂)
      | (Except.error e, bs₂) => (Except.error e, bs₂)
    | (Except.error e, bs₁) => (Except.error e, bs₁)

/-- `map` / `Map` (`src/matcher.rs`). -/
def mapM {α β : Type} (m : Matcher α) (f : α → β) : Matcher β :=
  fun bs =>
    match m bs with
    | (Except.ok t, bs₁) => (Except.ok (f t), bs₁)
    | (Except.error e, bs₁) => (Except.error e, bs₁)

/-- `then_with` / `Expose` (`src/matcher.rs`): data-dependent continuation. -/
def thenWithM {α β : Type} (m : Matcher α) (f : α → Matcher β) : Matcher (α × β) :=
  fun bs =>
    match m bs with
    | (Except.ok t, bs₁) =>
      match f t bs₁ with
      | (Except.ok u, bs₂) => (Except.ok (t, u), bs₂)
      | (Except.error e, bs₂) => (Except.error e, bs₂)
    | (Except.error e, bs₁) => (Except.error e, bs₁)

/-- `save` / `Save` (`src/parser.rs`): fold the second component into the
first (the source mutates the builder in place; the model returns it). -/
def saveM {α β : Type} (m : Matcher (α × β)) (g : α → β → α) : Matcher α :=
  fun bs =>
    match m bs with
    | (Except.ok t, bs₁) => (Except.ok (g t.1 t.2), bs₁)
    | (Except.error e, bs₁) => (Except.error e, bs₁)

/-- `skip` / `Skip` (`src/parser.rs`): drop the second component. -/
def skipM {α β : Type} (m : Matcher (α × β)) : Matcher α :=
  fun bs =>
    match m bs with
    | (Except.ok t, bs₁) => (Except.ok t.1, bs₁)
    | (Except.error e, bs₁) => (Except.error e, bs₁)

/-- `single(chr)` (`src/parser.rs`): consume one byte via `next` and require
it to equal the character (chars are modelled by their code points; a byte
`b` cast `as char` is the code point `b`).  Note that `next` has already
advanced the position when the comparison fails. -/
def single (chr : Nat) : Matcher Nat :=
  fun bs =>
    match bs.next with
    | (some b, bs₁) =>
      if b = chr then (Except.ok b, bs₁)
      else (Except.error (MatchError.unexpected bs.pos "EOF" (toString chr)), bs₁)
    | (none, bs₁) =>
      (Except.error (MatchError.unexpected bs.pos "EOF" (toString chr)), bs₁)

/-- The `for i in 0..slice.len()` loop body of `exact` (`src/parser.rs`)
without the surrounding mark/reset: try `single` for each byte in order,
propagating the first failure. -/
def exactGo : List Nat → ByteStream → Except MatchError (List Nat) × ByteStream
  | [], bs => (Except.ok [], bs)
  | b :: rest, bs =>
    match single b bs with
    | (Except.ok c, bs₁) =>
      match exactGo rest bs₁ with
      | (Except.ok cs, bs₂) => (Except.ok (c :: cs), bs₂)
      | (Except.error e, bs₂) => (Except.error e, bs₂)
    | (Except.error e, bs₁) => (Except.error e, bs₁)

/-- `exact(slice)` (`src/parser.rs`): match the literal byte by byte; on any
failure rewind to the mark taken before the attempt and propagate the error.
The collected chars are cast back `as u8` on success (`% 256`). -/
def exact (slice : List Nat) : Matcher (List Nat) :=
  fun bs =>
    let mark := bs.mark
    match exactGo slice bs with
    | (Except.ok acc, bs₁) => (Except.ok (acc.map (· % 256)), bs₁)
    | (Except.error e, bs₁) => (Except.error e, bs₁.reset mark)

/-- `before(chr)` (`src/parser.rs`): find the first occurrence of the
delimiter (compared `as u8`, hence `% 256`) at or after `pos` without
consuming, then `get` exactly the bytes strictly before it. -/
def before (chr : Nat) : Matcher (List Nat) :=
  fun bs =>
    match bs.find_single (fun c => c == chr % 256) with
    | some idx =>
      match bs.get (idx - bs.pos) with
      | (some v, bs₁) => (Except.ok v, bs₁)
      | (none, bs₁) => (Except.error (MatchError.not_found bs.pos chr), bs₁)
    | none => (Except.error (MatchError.not_found bs.pos chr), bs)

/-- `bytes(len)` (`src/parser.rs`): raw fixed-length read via `get`. -/
def bytes (n : Nat) : Matcher (List Nat) :=
  fun bs =>
    match bs.get n with
    | (some v, bs₁) => (Except.ok v, bs₁)
    | (none, bs₁) => (Except.error (MatchError.over_capacity bs.pos bs.buf.length n), bs₁)

/-- `repeat` (`src/parser.rs`): zero-or-more applications of the sub-step;
each iteration takes a mark, and the first failing attempt is rewound to its
mark and ends the loop with the results collected so far.  The Rust loop is
unbounded; `fuel` bounds the number of iterations in the model (every
terminating run of the source loop is reproduced by a large enough fuel —
in this repository each sub-step consumes at least one byte on success, so
`remaining bytes + 1` always suffices). -/
def repeatM {α : Type} (m : Matcher α) : Nat → Matcher (List α)
  | 0 => fun bs => (Except.ok [], bs)
  | fuel + 1 => fun bs =>
    let mark := bs.mark
    match m bs with
    | (Except.error _, bs₁) => (Except.ok [], bs₁.reset mark)
    | (Except.ok t, bs₁) =>
      match repeatM m fuel bs₁ with
      | (Except.ok acc, bs₂) => (Except.ok (t :: acc), bs₂)
      | (Except.error e, bs₂) => (Except.error e, bs₂)

/-- `as_string` (`src/http.rs`): each byte cast `as char`. -/
def as_string (l : List Nat) : String :=
  String.mk (l.map (fun b => Char.ofNat b))

/-- `struct Header` (`src/http.rs`). -/
structure Header where
  name : String
  value : String
  deriving Repr, DecidableEq

/-- `struct Request` (`src/http.rs`). -/
structure Request where
  method : String
  path : String
  protocol : String
  headers : List Header
  content : List Nat
  deriving Repr, DecidableEq

/-- `Request::default()`: all fields empty. -/
def Request.default : Request :=
  { method := "", path := "", protocol := "", headers := [], content := [] }

/-- Rust's `str::parse::<usize>` (`usize::from_str`): an optional leading
`+`, then one or more ASCII digits, rejecting anything else, the empty
string, and values not below `2^64`. -/
def parseUsize (s : String) : Option Nat :=
  let ds := match s.data with
    | '+' :: rest => rest
    | cs => cs
  if ds.isEmpty then none
  else if ds.all Char.isDigit then
    let v := ds.foldl (fun acc c => acc * 10 + (c.toNat - 48)) 0
    if v < 18446744073709551616 then some v else none
  else none

/-- `get_header_value` (`src/http.rs`): value of the first header with the
given name. -/
def get_header_value (req : Request) (name : String) : Option String :=
  (req.headers.find? (fun h => h.name == name)).map (fun h => h.value)

/-- `get_content_length` (`src/http.rs`): the first `Content-Length` header
value parsed as `usize`, with a failed parse collapsed to 0. -/
def get_content_length (req : Request) : Option Nat :=
  (get_header_value req "Content-Length").map (fun s => (parseUsize s).getD 0)

/-- The header grammar of `src/http.rs` (source name ends in a reserved
suffix, hence `headerM`): `before(':')` (name), `single(':')`, `single(' ')`,
`before('\r')` (value), `exact("\r\n")`, collected through an accumulator
list exactly as the source chains `then`/`map`. -/
def headerM : Matcher Header :=
  mapM
    (mapM
      (thenM
        (mapM
          (thenM
            (mapM
              (thenM
                (mapM
                  (thenM
                    (mapM
                      (thenM (unitM (fun _ => ([] : List String))) (before 58))
                      (fun p => p.1 ++ [as_string p.2]))
                    (single 58))
                  (fun p => p.1))
                (single 32))
              (fun p => p.1))
            (before 13))
          (fun p => p.1 ++ [as_string p.2]))
        (exact [13, 10]))
      (fun p => p.1))
    (fun v => { name := v.getD 0 "", value := v.getD 1 "" })

/-- The request grammar of `src/http.rs` up to and including the blank line
that ends the header block: request line, `repeat(header)`, final CRLF.
`fuel` bounds the header repetition (see `repeatM`). -/
def request_head (fuel : Nat) : Matcher Request :=
  skipM
    (thenM
      (saveM
        (thenM
          (skipM
            (thenM
              (saveM
                (thenM
                  (skipM
                    (thenM
                      (saveM
                        (thenM
                          (skipM
                            (thenM
                              (saveM
                                (thenM (unitM (fun _ => Request.default)) (before 32))
                                (fun r v => { r with method := as_string v }))
                              (single 32)))
                          (before 32))
                        (fun r v => { r with path := as_string v }))
                      (single 32)))
                  (before 13))
                (fun r v => { r with protocol := as_string v }))
              (exact [13, 10])))
          (repeatM headerM fuel))
        (fun r v => { r with headers := v }))
      (exact [13, 10]))

/-- The full request grammar of `src/http.rs` (the Rust function's name ends
in a reserved suffix, hence `requestMatcher`): the head grammar followed by
`then_with`, which reads
`get_content_length(req).unwrap_or(0)` body bytes straight into `content`. -/
def requestMatcher (fuel : Nat) : Matcher Request :=
  saveM
    (thenWithM (request_head fuel) (fun r => bytes ((get_content_length r).getD 0)))
    (fun r c => { r with content := c })

/-- `parse_http_request` (`src/http.rs`): every error collapses to `none`. -/
def parse_http_request (bs : ByteStream) : Option Request × ByteStream :=
  match requestMatcher (bs.buf.length + 1) bs with
  | (Except.ok r, bs₁) => (some r, bs₁)
  | (Except.error _, bs₁) => (none, bs₁)

/-- `struct Frame` (`src/ws.rs`). -/
structure Frame where
  fin : Bool
  opcode : Nat
  len : Nat
  mask : Option (List Nat)
  body : List Nat
  deriving Repr, DecidableEq

/-- `struct FrameOpts` (`src/ws.rs`). -/
structure FrameOpts where
  fin : Bool
  code : Nat
  len : Nat
  mask : Bool
  deriving Repr, DecidableEq

/-- `FrameOpts::new` (`src/ws.rs`): split the two-byte option word. -/
def FrameOpts.new (word : List Nat) : FrameOpts :=
  { fin := decide (0 < word.getD 0 0 >>> 7)
  , code := 15 &&& word.getD 0 0
  , len := 127 &&& word.getD 1 0
  , mask := decide (0 < word.getD 1 0 >>> 7) }

/-- `build_u16` (`src/ws.rs`): `vec.into_iter().fold(0u16, |acc, b|
acc << 8 + b as u16)`.  In Rust `+` binds tighter than `<<`, so each step is
`acc << (8 + b)`; the model uses release-mode semantics (`u16` shift amounts
are masked `% 16`, results wrap `% 2^16`; a debug build panics on the shift
overflow whenever `8 + b ≥ 16`). -/
def build_u16 (v : List Nat) : Nat :=
  v.foldl (fun acc b => (acc <<< ((8 + b) % 16)) % 65536) 0

/-- `build_u64` (`src/ws.rs`): same precedence as `build_u16`, with `u64`
masking. -/
def build_u64 (v : List Nat) : Nat :=
  v.foldl (fun acc b => (acc <<< ((8 + b) % 64)) % 18446744073709551616) 0

/-- `frame_opts()` (`src/ws.rs`): two bytes mapped through `FrameOpts::new`. -/
def frame_opts : Matcher FrameOpts :=
  mapM (bytes 2) FrameOpts.new

/-- The length step `p1` of `parse_frame` (`src/ws.rs`): branch on the length
class; 127 reads 8 bytes through `build_u64` (then `as u32`), 126 reads 2
bytes through `build_u16`, otherwise the class byte itself is the length. -/
def frameLenStep (opts : FrameOpts) : Matcher Nat :=
  if opts.len == 127 then
    mapM (thenM (unitM (fun _ => ())) (bytes 8)) (fun p => build_u64 p.2 % 4294967296)
  else if opts.len == 126 then
    mapM (thenM (unitM (fun _ => ())) (bytes 2)) (fun p => build_u16 p.2)
  else
    mapM (unitM (fun _ => ())) (fun _ => opts.len)

/-- The frame-builder step `p2` of `parse_frame` (`src/ws.rs`): the body
starts as `Vec::with_capacity(len)`, i.e. empty. -/
def frameBase (opts : FrameOpts) : Matcher Frame :=
  mapM (frameLenStep opts)
    (fun len => { fin := opts.fin, opcode := opts.code, len := len, mask := none, body := [] })

/-- The mask step `p3` of `parse_frame` (`src/ws.rs`): when the mask flag is
set, read 4 more bytes and store them as the mask key. -/
def frameMaskStep (opts : FrameOpts) : Matcher Frame :=
  if opts.mask then
    saveM (thenM (frameBase opts) (bytes 4))
      (fun f v => { f with mask := some [v.getD 0 0, v.getD 1 0, v.getD 2 0, v.getD 3 0] })
  else
    frameBase opts

/-- `parse_frame` (`src/ws.rs`): option word, then `p4 = p3.then_with(|f|
bytes(f.len)).save(body)`, with every error collapsed to `none`. -/
def parse_frame (bs : ByteStream) : Option Frame × ByteStream :=
  match frame_opts bs with
  | (Except.error _, bs₁) => (none, bs₁)
  | (Except.ok opts, bs₁) =>
    match
      saveM (thenWithM (frameMaskStep opts) (fun f => bytes f.len))
        (fun f v => { f with body := v }) bs₁ with
    | (Except.ok f, bs₂) => (some f, bs₂)
    | (Except.error _, bs₂) => (none, bs₂)

/-- `impl Into<Vec<u8>> for Frame` (`src/ws.rs`): the outbound encoder.
Note it writes `self.body.len()` (not the `len` field) as the length, and
only supports the one- and two-byte length forms. -/
def frame_encode (f : Frame) : List Nat :=
  let s0 := ByteStream.with_capacity (f.body.length + 26)
  let byte1 := (((if f.fin then 1 else 0) <<< 7) + f.opcode) % 256
  let s1 := (s0.put [byte1]).2
  let s2 :=
    if f.body.length ≤ 125 then (s1.put [f.body.length % 256]).2
    else
      let s := (s1.put [126]).2
      let size := f.body.length % 65536
      (s.put [(size >>> 8) % 256, size &&& 255]).2
  let s3 := (s2.put f.body).2
  s3.as_ref

/-- Width of the extended-length field for a 7-bit length class: 8 bytes for
class 127, 2 bytes for class 126, nothing otherwise (statement vocabulary for
the WebSocket layout). -/
def extLen (cls : Nat) : Nat :=
  if cls == 127 then 8 else if cls == 126 then 2 else 0

/-- Concrete demo input: `"A B C\r\nContent-Length: 3\r\n\r\nabc"` as bytes. -/
def demoBytes : List Nat :=
  [65, 32, 66, 32, 67, 13, 10,
   67, 111, 110, 116, 101, 110, 116, 45, 76, 101, 110, 103, 116, 104,
   58, 32, 51, 13, 10, 13, 10, 97, 98, 99]

/-- Concrete demo input: `"A B C\r\n\r\n"` as bytes (no `Content-Length`). -/
def demoBytes2 : List Nat :=
  [65, 32, 66, 32, 67, 13, 10, 13, 10]

/-- The request that `parse_http_request` produces on `demoBytes`. -/
def demoReq : Request :=
  { method := "A", path := "B", protocol := "C",
    headers := [{ name := "Content-Length", value := "3" }],
    content := [97, 98, 99] }

/-- The frame that `parse_frame` produces on the `frame1` test vector of
`src/ws.rs`. -/
def demoFrame : Frame :=
  { fin := true, opcode := 9, len := 7, mask := some [1, 2, 3, 4],
    body := [10, 11, 12, 13, 14, 15, 16] }

/-- A frame whose `len` field disagrees with its body length. -/
def cexFrame : Frame :=
  { fin := true, opcode := 1, len := 5, mask := none, body := [] }

/-! ### Helper lemmas -/

theorem build_u16_eq_zero (v : List Nat) : build_u16 v = 0 := by
  have h : ∀ (l : List Nat),
      l.foldl (fun acc b => (acc <<< ((8 + b) % 16)) % 65536) 0 = 0 := by
    intro l
    induction l with
    | nil => rfl
    | cons a l ih => simpa [Nat.zero_shiftLeft] using ih
  exact h v

theorem build_u64_eq_zero (v : List Nat) : build_u64 v = 0 := by
  have h : ∀ (l : List Nat),
      l.foldl (fun acc b => (acc <<< ((8 + b) % 64)) % 18446744073709551616) 0 = 0 := by
    intro l
    induction l with
    | nil => rfl
    | cons a l ih => simpa [Nat.zero_shiftLeft] using ih
  exact h v

theorem getLoop_eq_take_drop (buf : List Nat) :
    ∀ (n offset : Nat), offset + n ≤ buf.length →
      getLoop buf offset n = (buf.drop offset).take n := by
  intro n
  induction n with
  | zero => intro offset _; simp [getLoop]
  | succ k ih =>
    intro offset h
    have hlt : offset < buf.length := by omega
    have hdrop : buf.drop offset = buf[offset] :: buf.drop (offset + 1) :=
      List.drop_eq_getElem_cons hlt
    have hD : buf.getD offset 0 = buf[offset] := List.getD_eq_getElem buf 0 hlt
    simp only [getLoop, hD, hdrop, List.take_succ_cons]
    exact congrArg _ (ih (offset + 1) (by omega))

theorem get_eq_of_le {bs : ByteStream} {n : Nat} (h : bs.pos + n ≤ bs.buf.length) :
    bs.get n = (some ((bs.buf.drop bs.pos).take n), { bs with pos := bs.pos + n }) := by
  simp [ByteStream.get, h, getLoop_eq_take_drop bs.buf n bs.pos h]

theorem get_eq_of_gt {bs : ByteStream} {n : Nat} (h : bs.buf.length < bs.pos + n) :
    bs.get n = (none, bs) := by
  have h' : ¬ (bs.pos + n ≤ bs.buf.length) := by omega
  simp [ByteStream.get, h']

theorem bytes_eq_ok {bs : ByteStream} {n : Nat} (h : bs.pos + n ≤ bs.buf.length) :
    bytes n bs = (Except.ok ((bs.buf.drop bs.pos).take n), { bs with pos := bs.pos + n }) := by
  simp [bytes, get_eq_of_le h]

theorem bytes_ok {bs bs' : ByteStream} {n : Nat} {v : List Nat}
    (h : bytes n bs = (Except.ok v, bs')) :
    bs.pos + n ≤ bs.buf.length ∧ v = (bs.buf.drop bs.pos).take n ∧ v.length = n ∧
      bs' = { bs with pos := bs.pos + n } := by
  by_cases hle : bs.pos + n ≤ bs.buf.length
  · rw [bytes_eq_ok hle] at h
    simp only [Prod.mk.injEq, Except.ok.injEq] at h
    obtain ⟨hv, hbs⟩ := h
    subst hv
    refine ⟨hle, rfl, ?_, hbs.symm⟩
    simp only [List.length_take, List.length_drop]
    omega
  · unfold bytes at h
    rw [get_eq_of_gt (by omega)] at h
    simp at h

theorem thenM_ok {α β : Type} {m : Matcher α} {n : Matcher β} {bs bs₂ : ByteStream}
    {t : α} {u : β} (h : thenM m n bs = (Except.ok (t, u), bs₂)) :
    ∃ bs₁, m bs = (Except.ok t, bs₁) ∧ n bs₁ = (Except.ok u, bs₂) := by
  unfold thenM at h
  rcases hm : m bs with ⟨r₁, bs₁⟩
  rw [hm] at h
  rcases r₁ with e | t'
  · simp at h
  · dsimp only at h
    rcases hn : n bs₁ with ⟨r₂, bs₂'⟩
    rcases r₂ with e | u'
    · rw [hn] at h; simp at h
    · rw [hn] at h
      simp only [Prod.mk.injEq, Except.ok.injEq] at h
      obtain ⟨⟨h1, h2⟩, h3⟩ := h
      subst h1; subst h2; subst h3
      exact ⟨bs₁, rfl, hn⟩

theorem mapM_ok {α β : Type} {m : Matcher α} {f : α → β} {bs bs₁ : ByteStream}
    {u : β} (h : mapM m f bs = (Except.ok u, bs₁)) :
    ∃ t, m bs = (Except.ok t, bs₁) ∧ u = f t := by
  unfold mapM at h
  rcases hm : m bs with ⟨r, bs'⟩
  rw [hm] at h
  rcases r with e | t
  · simp at h
  · simp only [Prod.mk.injEq, Except.ok.injEq] at h
    obtain ⟨h1, h2⟩ := h
    subst h2
    exact ⟨t, rfl, h1.symm⟩

theorem saveM_ok {α β : Type} {m : Matcher (α × β)} {g : α → β → α} {bs bs₁ : ByteStream}
    {t : α} (h : saveM m g bs = (Except.ok t, bs₁)) :
    ∃ a u, m bs = (Except.ok (a, u), bs₁) ∧ t = g a u := by
  unfold saveM at h
  rcases hm : m bs with ⟨r, bs'⟩
  rw [hm] at h
  rcases r with e | p
  · simp at h
  · simp only [Prod.mk.injEq, Except.ok.injEq] at h
    obtain ⟨h1, h2⟩ := h
    subst h2
    exact ⟨p.1, p.2, rfl, h1.symm⟩

theorem skipM_ok {α β : Type} {m : Matcher (α × β)} {bs bs₁ : ByteStream}
    {t : α} (h : skipM m bs = (Except.ok t, bs₁)) :
    ∃ u, m bs = (Except.ok (t, u), bs₁) := by
  unfold skipM at h
  rcases hm : m bs with ⟨r, bs'⟩
  rw [hm] at h
  rcases r with e | p
  · simp at h
  · simp only [Prod.mk.injEq, Except.ok.injEq] at h
    obtain ⟨h1, h2⟩ := h
    subst h2
    refine ⟨p.2, ?_⟩
    rw [← h1]

theorem thenWithM_ok {α β : Type} {m : Matcher α} {f : α → Matcher β} {bs bs₂ : ByteStream}
    {t : α} {u : β} (h : thenWithM m f bs = (Except.ok (t, u), bs₂)) :
    ∃ bs₁, m bs = (Except.ok t, bs₁) ∧ f t bs₁ = (Except.ok u, bs₂) := by
  unfold thenWithM at h
  rcases hm : m bs with ⟨r₁, bs₁⟩
  rw [hm] at h
  rcases r₁ with e | t'
  · simp at h
  · dsimp only at h
    rcases hn : f t' bs₁ with ⟨r₂, bs₂'⟩
    rcases r₂ with e | u'
    · rw [hn] at h; simp at h
    · rw [hn] at h
      simp only [Prod.mk.injEq, Except.ok.injEq] at h
      obtain ⟨⟨h1, h2⟩, h3⟩ := h
      subst h1; subst h2; subst h3
      exact ⟨bs₁, rfl, hn⟩

theorem position_eq_none {p : Nat → Bool} :
    ∀ {l : List Nat}, position p l = none ↔ ∀ j, j < l.length → p (l.getD j 0) = false := by
  intro l
  induction l with
  | nil => simp [position]
  | cons a l ih =>
    cases hp : p a with
    | true =>
      simp only [position, hp, if_true]
      constructor
      · intro h; simp at h
      · intro h
        have h0 := h 0 (by simp)
        simp only [List.getD_cons_zero] at h0
        rw [hp] at h0
        simp at h0
    | false =>
      simp only [position, hp, if_false]
      constructor
      · intro h j hj
        cases j with
        | zero => simpa using hp
        | succ k =>
          have hnone : position p l = none := by
            cases hpl : position p l with
            | none => rfl
            | some i => rw [hpl] at h; simp at h
          have := (ih.mp hnone) k (by simp at hj; omega)
          simpa using this
      · intro h
        have hnone : position p l = none := by
          apply ih.mpr
          intro j hj
          have := h (j + 1) (by simp; omega)
          simpa using this
        simp [hnone]

theorem position_eq_some {p : Nat → Bool} :
    ∀ {l : List Nat} {k : Nat}, position p l = some k →
      k < l.length ∧ p (l.getD k 0) = true ∧ ∀ j, j < k → p (l.getD j 0) = false := by
  intro l
  induction l with
  | nil => intro k h; simp [position] at h
  | cons a l ih =>
    intro k h
    cases hp : p a with
    | true =>
      simp only [position, hp, if_true, Option.some.injEq] at h
      subst h
      refine ⟨by simp, by simpa using hp, ?_⟩
      intro j hj
      omega
    | false =>
      simp only [position, hp] at h
      rw [if_neg (by simp)] at h
      cases hpl : position p l with
      | none => rw [hpl] at h; simp at h
      | some i =>
        rw [hpl] at h
        simp only [Option.map_some', Option.some.injEq] at h
        subst h
        obtain ⟨h1, h2, h3⟩ := ih hpl
        refine ⟨by simp; omega, by simpa using h2, ?_⟩
        intro j hj
        cases j with
        | zero => simpa using hp
        | succ i' =>
          have := h3 i' (by omega)
          simpa using this

theorem getD_drop (l : List Nat) : ∀ (n k : Nat), (l.drop n).getD k 0 = l.getD (n + k) 0 := by
  induction l with
  | nil => intro n k; simp
  | cons a l ih =>
    intro n k
    cases n with
    | zero => simp
    | succ m =>
      simp only [List.drop_succ_cons, ih m k]
      have h : m + 1 + k = (m + k) + 1 := by omega
      rw [h]
      simp [List.getD]

theorem take_one_drop {bs : ByteStream} (h : bs.pos < bs.buf.length) :
    (bs.buf.drop bs.pos).take 1 = [bs.buf.getD bs.pos 0] := by
  rw [List.drop_eq_getElem_cons h, List.getD_eq_getElem bs.buf 0 h]
  rfl

theorem single_eq_of_lt {chr : Nat} {bs : ByteStream} (h : bs.pos < bs.buf.length) :
    single chr bs =
      ((if bs.buf.getD bs.pos 0 = chr then Except.ok (bs.buf.getD bs.pos 0)
        else Except.error (MatchError.unexpected bs.pos "EOF" (toString chr))),
       { bs with pos := bs.pos + 1 }) := by
  have h1 : bs.pos + 1 ≤ bs.buf.length := by omega
  simp only [single, ByteStream.next, get_eq_of_le h1, take_one_drop h,
    Option.map_some', List.getD_cons_zero]
  split <;> rfl

theorem single_eq_of_ge {chr : Nat} {bs : ByteStream} (h : bs.buf.length ≤ bs.pos) :
    single chr bs =
      (Except.error (MatchError.unexpected bs.pos "EOF" (toString chr)), bs) := by
  unfold single ByteStream.next
  rw [get_eq_of_gt (by omega)]
  simp

theorem single_frame {chr : Nat} {bs bs₁ : ByteStream} {r : Except MatchError Nat}
    (h : single chr bs = (r, bs₁)) :
    bs₁.buf = bs.buf ∧ bs₁.capacity = bs.capacity ∧ bs.pos ≤ bs₁.pos := by
  by_cases hlt : bs.pos < bs.buf.length
  · rw [single_eq_of_lt hlt] at h
    have h2 := congrArg Prod.snd h
    dsimp only at h2
    rw [← h2]
    exact ⟨rfl, rfl, by dsimp only; omega⟩
  · rw [single_eq_of_ge (by omega)] at h
    have h2 := congrArg Prod.snd h
    dsimp only at h2
    rw [← h2]
    exact ⟨rfl, rfl, Nat.le_refl _⟩

theorem exactGo_frame :
    ∀ (slice : List Nat) (bs : ByteStream) (r : Except MatchError (List Nat))
      (bs' : ByteStream), exactGo slice bs = (r, bs') →
      bs'.buf = bs.buf ∧ bs'.capacity = bs.capacity ∧ bs.pos ≤ bs'.pos := by
  intro slice
  induction slice with
  | nil =>
    intro bs r bs' h
    simp only [exactGo, Prod.mk.injEq] at h
    rw [← h.2]
    exact ⟨rfl, rfl, Nat.le_refl _⟩
  | cons b rest ih =>
    intro bs r bs' h
    unfold exactGo at h
    rcases h₁ : single b bs with ⟨r₁, bs₁⟩
    rw [h₁] at h
    rcases r₁ with e | c
    · dsimp only at h
      have h2 := congrArg Prod.snd h
      dsimp only at h2
      rw [← h2]
      exact single_frame h₁
    · dsimp only at h
      rcases h₂ : exactGo rest bs₁ with ⟨r₂, bs₂⟩
      rw [h₂] at h
      obtain ⟨hb1, hc1, hp1⟩ := single_frame h₁
      obtain ⟨hb2, hc2, hp2⟩ := ih bs₁ r₂ bs₂ h₂
      have hbs' : bs' = bs₂ := by
        rcases r₂ with e | cs <;>
          · have h2 := congrArg Prod.snd h
            dsimp only at h2
            exact h2.symm
      rw [hbs']
      exact ⟨hb2.trans hb1, hc2.trans hc1, Nat.le_trans hp1 hp2⟩

/-- A matcher preserves the cursor invariant `pos ≤ length` (all matchers of
the library do; used to propagate the invariant through the HTTP grammar). -/
def PresInv {α : Type} (m : Matcher α) : Prop :=
  ∀ (bs : ByteStream) (r : Except MatchError α) (bs' : ByteStream),
    m bs = (r, bs') → bs.pos ≤ bs.buf.length → bs'.pos ≤ bs'.buf.length

theorem presInv_unitM {α : Type} (f : Unit → α) : PresInv (unitM f) := by
  intro bs r bs' h hinv
  obtain ⟨_, h2⟩ := Prod.mk.injEq .. ▸ h
  rw [← h2]
  exact hinv

theorem presInv_get {bs : ByteStream} {n : Nat} {r : Option (List Nat)} {bs' : ByteStream}
    (h : bs.get n = (r, bs')) (hinv : bs.pos ≤ bs.buf.length) :
    bs'.pos ≤ bs'.buf.length := by
  by_cases hle : bs.pos + n ≤ bs.buf.length
  · rw [get_eq_of_le hle] at h
    obtain ⟨_, h2⟩ := Prod.mk.injEq .. ▸ h
    rw [← h2]
    dsimp only
    omega
  · rw [get_eq_of_gt (by omega)] at h
    obtain ⟨_, h2⟩ := Prod.mk.injEq .. ▸ h
    rw [← h2]
    exact hinv

theorem presInv_bytes (n : Nat) : PresInv (bytes n) := by
  intro bs r bs' h hinv
  unfold bytes at h
  rcases hg : bs.get n with ⟨ro, bsg⟩
  rw [hg] at h
  have hbs' : bs' = bsg := by
    rcases ro with _ | v <;>
      · dsimp only at h
        exact (Prod.mk.injEq .. ▸ h).2.symm
  rw [hbs']
  exact presInv_get hg hinv

theorem presInv_single (chr : Nat) : PresInv (single chr) := by
  intro bs r bs' h hinv
  by_cases hlt : bs.pos < bs.buf.length
  · rw [single_eq_of_lt hlt] at h
    have h2 := congrArg Prod.snd h
    dsimp only at h2
    rw [← h2]
    dsimp only
    omega
  · rw [single_eq_of_ge (by omega)] at h
    have h2 := congrArg Prod.snd h
    dsimp only at h2
    rw [← h2]
    exact hinv

theorem presInv_reset {bs : ByteStream} (m : Mark) (hinv : bs.pos ≤ bs.buf.length) :
    (bs.reset m).pos ≤ (bs.reset m).buf.length := by
  unfold ByteStream.reset
  split
  · dsimp only
    omega
  · exact hinv

theorem exactGo_presInv :
    ∀ (sl : List Nat) (st : ByteStream) (rr : Except MatchError (List Nat))
      (st' : ByteStream), exactGo sl st = (rr, st') → st.pos ≤ st.buf.length →
      st'.pos ≤ st'.buf.length := by
  intro sl
  induction sl with
  | nil =>
    intro st rr st' hh hin
    obtain ⟨_, h2⟩ := Prod.mk.injEq .. ▸ hh
    rw [← h2]; exact hin
  | cons b rest ihh =>
    intro st rr st' hh hin
    unfold exactGo at hh
    rcases h₁ : single b st with ⟨r₁, st₁⟩
    rw [h₁] at hh
    have hst₁ : st₁.pos ≤ st₁.buf.length := presInv_single b st r₁ st₁ h₁ hin
    rcases r₁ with e | c
    · dsimp only at hh
      have h2 := congrArg Prod.snd hh
      dsimp only at h2
      rw [← h2]; exact hst₁
    · dsimp only at hh
      rcases h₂ : exactGo rest st₁ with ⟨r₂, st₂⟩
      rw [h₂] at hh
      have hst₂ := ihh st₁ r₂ st₂ h₂ hst₁
      rcases r₂ with e | cs <;>
        · have h2 := congrArg Prod.snd hh
          dsimp only at h2
          rw [← h2]; exact hst₂

theorem presInv_exact (slice : List Nat) : PresInv (exact slice) := by
  intro bs r bs' h hinv
  unfold exact at h
  rcases hg : exactGo slice bs with ⟨rg, bsg⟩
  rw [hg] at h
  have hg_inv : bsg.pos ≤ bsg.buf.length := exactGo_presInv slice bs rg bsg hg hinv
  rcases rg with e | acc
  · dsimp only at h
    have h2 := congrArg Prod.snd h
    dsimp only at h2
    rw [← h2]
    exact presInv_reset _ hg_inv
  · dsimp only at h
    have h2 := congrArg Prod.snd h
    dsimp only at h2
    rw [← h2]
    exact hg_inv

theorem presInv_before (chr : Nat) : PresInv (before chr) := by
  intro bs r bs' h hinv
  unfold before at h
  rcases hf : bs.find_single (fun c => c == chr % 256) with _ | idx
  · rw [hf] at h
    dsimp only at h
    have h2 := congrArg Prod.snd h
    dsimp only at h2
    rw [← h2]
    exact hinv
  · rw [hf] at h
    dsimp only at h
    rcases hg : bs.get (idx - bs.pos) with ⟨ro, bsg⟩
    rw [hg] at h
    have hbs' : bs' = bsg := by
      rcases ro with _ | v <;>
        · have h2 := congrArg Prod.snd h
          dsimp only at h2
          exact h2.symm
    rw [hbs']
    exact presInv_get hg hinv

theorem presInv_thenM {α β : Type} {m : Matcher α} {n : Matcher β}
    (hm : PresInv m) (hn : PresInv n) : PresInv (thenM m n) := by
  intro bs r bs' h hinv
  unfold thenM at h
  rcases h₁ : m bs with ⟨r₁, bs₁⟩
  rw [h₁] at h
  have hbs₁ := hm bs r₁ bs₁ h₁ hinv
  rcases r₁ with e | t
  · dsimp only at h
    have h2 := congrArg Prod.snd h
    dsimp only at h2
    rw [← h2]; exact hbs₁
  · dsimp only at h
    rcases h₂ : n bs₁ with ⟨r₂, bs₂⟩
    rw [h₂] at h
    have hbs₂ := hn bs₁ r₂ bs₂ h₂ hbs₁
    rcases r₂ with e | u <;>
      · have h2 := congrArg Prod.snd h
        dsimp only at h2
        rw [← h2]; exact hbs₂

theorem presInv_thenWithM {α β : Type} {m : Matcher α} {f : α → Matcher β}
    (hm : PresInv m) (hf : ∀ a, PresInv (f a)) : PresInv (thenWithM m f) := by
  intro bs r bs' h hinv
  unfold thenWithM at h
  rcases h₁ : m bs with ⟨r₁, bs₁⟩
  rw [h₁] at h
  have hbs₁ := hm bs r₁ bs₁ h₁ hinv
  rcases r₁ with e | t
  · dsimp only at h
    have h2 := congrArg Prod.snd h
    dsimp only at h2
    rw [← h2]; exact hbs₁
  · dsimp only at h
    rcases h₂ : f t bs₁ with ⟨r₂, bs₂⟩
    rw [h₂] at h
    have hbs₂ := hf t bs₁ r₂ bs₂ h₂ hbs₁
    rcases r₂ with e | u <;>
      · have h2 := congrArg Prod.snd h
        dsimp only at h2
        rw [← h2]; exact hbs₂

theorem presInv_mapM {α β : Type} {m : Matcher α} (f : α → β)
    (hm : PresInv m) : PresInv (mapM m f) := by
  intro bs r bs' h hinv
  unfold mapM at h
  rcases h₁ : m bs with ⟨r₁, bs₁⟩
  rw [h₁] at h
  have hbs₁ := hm bs r₁ bs₁ h₁ hinv
  rcases r₁ with e | t <;>
    · dsimp only at h
      have h2 := congrArg Prod.snd h
      dsimp only at h2
      rw [← h2]; exact hbs₁

theorem presInv_saveM {α β : Type} {m : Matcher (α × β)} (g : α → β → α)
    (hm : PresInv m) : PresInv (saveM m g) := by
  intro bs r bs' h hinv
  unfold saveM at h
  rcases h₁ : m bs with ⟨r₁, bs₁⟩
  rw [h₁] at h
  have hbs₁ := hm bs r₁ bs₁ h₁ hinv
  rcases r₁ with e | t <;>
    · dsimp only at h
      have h2 := congrArg Prod.snd h
      dsimp only at h2
      rw [← h2]; exact hbs₁

theorem presInv_skipM {α β : Type} {m : Matcher (α × β)}
    (hm : PresInv m) : PresInv (skipM m) := by
  intro bs r bs' h hinv
  unfold skipM at h
  rcases h₁ : m bs with ⟨r₁, bs₁⟩
  rw [h₁] at h
  have hbs₁ := hm bs r₁ bs₁ h₁ hinv
  rcases r₁ with e | t <;>
    · dsimp only at h
      have h2 := congrArg Prod.snd h
      dsimp only at h2
      rw [← h2]; exact hbs₁

theorem presInv_repeatM {α : Type} {m : Matcher α} (hm : PresInv m) :
    ∀ fuel, PresInv (repeatM m fuel) := by
  intro fuel
  induction fuel with
  | zero =>
    intro bs r bs' h hinv
    obtain ⟨_, h2⟩ := Prod.mk.injEq .. ▸ h
    rw [← h2]; exact hinv
  | succ k ih =>
    intro bs r bs' h hinv
    unfold repeatM at h
    rcases h₁ : m bs with ⟨r₁, bs₁⟩
    rw [h₁] at h
    have hbs₁ := hm bs r₁ bs₁ h₁ hinv
    rcases r₁ with e | t
    · dsimp only at h
      have h2 := congrArg Prod.snd h
      dsimp only at h2
      rw [← h2]
      exact presInv_reset _ hbs₁
    · dsimp only at h
      rcases h₂ : repeatM m k bs₁ with ⟨r₂, bs₂⟩
      rw [h₂] at h
      have hbs₂ := ih bs₁ r₂ bs₂ h₂ hbs₁
      rcases r₂ with e | acc <;>
        · have h2 := congrArg Prod.snd h
          dsimp only at h2
          rw [← h2]; exact hbs₂

theorem presInv_headerM : PresInv headerM := by
  unfold headerM
  apply presInv_mapM
  apply presInv_mapM
  apply presInv_thenM
  · apply presInv_mapM
    apply presInv_thenM
    · apply presInv_mapM
      apply presInv_thenM
      · apply presInv_mapM
        apply presInv_thenM
        · apply presInv_mapM
          apply presInv_thenM
          · exact presInv_unitM _
          · exact presInv_before 58
        · exact presInv_single 58
      · exact presInv_single 32
    · exact presInv_before 13
  · exact presInv_exact [13, 10]

theorem presInv_request_head (fuel : Nat) : PresInv (request_head fuel) := by
  unfold request_head
  apply presInv_skipM
  apply presInv_thenM
  · apply presInv_saveM
    apply presInv_thenM
    · apply presInv_skipM
      apply presInv_thenM
      · apply presInv_saveM
        apply presInv_thenM
        · apply presInv_skipM
          apply presInv_thenM
          · apply presInv_saveM
            apply presInv_thenM
            · apply presInv_skipM
              apply presInv_thenM
              · apply presInv_saveM
                apply presInv_thenM
                · exact presInv_unitM _
                · exact presInv_before 32
              · exact presInv_single 32
            · exact presInv_before 32
          · exact presInv_single 32
        · exact presInv_before 13
      · exact presInv_exact [13, 10]
    · exact presInv_repeatM presInv_headerM fuel
  · exact presInv_exact [13, 10]

theorem put_aux_inv {bs : ByteStream} {v : List Nat} (h : bs.pos ≤ bs.buf.length) :
    (bs.put v).2.pos ≤ (bs.put v).2.buf.length := by
  unfold ByteStream.put
  split
  · dsimp only
    simp only [List.length_append]
    omega
  · exact h

theorem get_aux_inv {bs : ByteStream} (n : Nat) (h : bs.pos ≤ bs.buf.length) :
    (bs.get n).2.pos ≤ (bs.get n).2.buf.length := by
  rcases hg : bs.get n with ⟨r, bs'⟩
  exact presInv_get hg h

/-! ### Claim theorems -/

/-- Claim C5: for every buffer and every `n`, `get(n)` returns the next `n`
bytes and advances the read position by exactly `n` precisely when
`pos + n ≤ length`; otherwise it returns nothing and leaves the position and
buffer contents unchanged (all-or-nothing, no partial read). -/
theorem get_all_or_nothing (bs : ByteStream) (n : Nat) :
    (bs.pos + n ≤ bs.buf.length →
      bs.get n = (some ((bs.buf.drop bs.pos).take n), { bs with pos := bs.pos + n }) ∧
      ((bs.buf.drop bs.pos).take n).length = n) ∧
    (bs.buf.length < bs.pos + n → bs.get n = (none, bs)) := by
  constructor
  · intro h
    refine ⟨get_eq_of_le h, ?_⟩
    simp only [List.length_take, List.length_drop]
    omega
  · intro h
    exact get_eq_of_gt h

/-- Witness for C5 at a concrete buffer: a 2-byte read from position 1 of a
3-byte buffer succeeds and advances, a 3-byte read fails and changes nothing. -/
theorem get_all_or_nothing_witness :
    ByteStream.get ⟨[1, 2, 3], 3, 1⟩ 2 =
      (some (([1, 2, 3].drop 1).take 2), { buf := [1, 2, 3], capacity := 3, pos := 3 }) ∧
    ByteStream.get ⟨[1, 2, 3], 3, 1⟩ 3 = (none, ⟨[1, 2, 3], 3, 1⟩) :=
  ⟨((get_all_or_nothing ⟨[1, 2, 3], 3, 1⟩ 2).1 (by decide)).1,
   (get_all_or_nothing ⟨[1, 2, 3], 3, 1⟩ 3).2 (by decide)⟩

/-- Claim C10: `put_u16` always returns `false` — even when the two
big-endian bytes are actually appended — because the appended count (2) is
compared against 16; `put_u32` and `put_u64` behave the same way with 32
and 64 in place of 4 and 8. -/
theorem put_u16_always_false (bs : ByteStream) (x y z : Nat) :
    ((bs.put_u16 x).1 = false ∧
      (2 ≤ bs.cap → (bs.put_u16 x).2.buf = bs.buf ++ write_u16 x)) ∧
    ((bs.put_u32 y).1 = false ∧
      (4 ≤ bs.cap → (bs.put_u32 y).2.buf = bs.buf ++ write_u32 y)) ∧
    ((bs.put_u64 z).1 = false ∧
      (8 ≤ bs.cap → (bs.put_u64 z).2.buf = bs.buf ++ write_u64 z)) := by
  refine ⟨⟨?_, ?_⟩, ⟨?_, ?_⟩, ⟨?_, ?_⟩⟩
  · unfold ByteStream.put_u16 ByteStream.put
    dsimp only
    split <;> rfl
  · intro h
    have hc : (write_u16 x).length ≤ bs.cap := by simpa [write_u16] using h
    unfold ByteStream.put_u16 ByteStream.put
    rw [if_pos hc]
  · unfold ByteStream.put_u32 ByteStream.put
    dsimp only
    split <;> rfl
  · intro h
    have hc : (write_u32 y).length ≤ bs.cap := by simpa [write_u32] using h
    unfold ByteStream.put_u32 ByteStream.put
    rw [if_pos hc]
  · unfold ByteStream.put_u64 ByteStream.put
    dsimp only
    split <;> rfl
  · intro h
    have hc : (write_u64 z).length ≤ bs.cap := by simpa [write_u64] using h
    unfold ByteStream.put_u64 ByteStream.put
    rw [if_pos hc]

/-- Witness for C10 at a concrete buffer with enough capacity: the bytes are
appended, yet all three return values are `false`. -/
theorem put_u16_always_false_witness :
    ((ByteStream.with_capacity 8).put_u16 258).1 = false ∧
    ((ByteStream.with_capacity 8).put_u16 258).2.buf = [] ++ write_u16 258 ∧
    ((ByteStream.with_capacity 8).put_u32 5).1 = false ∧
    ((ByteStream.with_capacity 8).put_u64 5).1 = false :=
  ⟨((put_u16_always_false (ByteStream.with_capacity 8) 258 5 5).1).1,
   ((put_u16_always_false (ByteStream.with_capacity 8) 258 5 5).1).2 (by decide),
   ((put_u16_always_false (ByteStream.with_capacity 8) 258 5 5).2.1).1,
   ((put_u16_always_false (ByteStream.with_capacity 8) 258 5 5).2.2).1⟩

/-- Claim C4: `exact` is atomic — whenever it fails, the stream is exactly
what it was before the call (position included), because the loop rewinds to
the mark taken before the attempt and propagates the failure. -/
theorem exact_atomic_on_failure (slice : List Nat) (bs bs' : ByteStream)
    (e : MatchError) (h : exact slice bs = (Except.error e, bs')) : bs' = bs := by
  unfold exact at h
  rcases hg : exactGo slice bs with ⟨rg, bsg⟩
  rw [hg] at h
  obtain ⟨hbuf, hcap, hpos⟩ := exactGo_frame slice bs rg bsg hg
  rcases rg with e' | acc
  · dsimp only at h
    have h2 := congrArg Prod.snd h
    dsimp only at h2
    rw [← h2]
    unfold ByteStream.reset
    rw [if_pos (by simpa [ByteStream.mark] using hpos)]
    dsimp only [ByteStream.mark]
    rw [show ({ bsg with pos := bs.pos } : ByteStream) =
      { buf := bsg.buf, capacity := bsg.capacity, pos := bs.pos } from rfl, hbuf, hcap]
  · simp at h

/-- Witness for C4: `exact [97]` on the buffer `[98]` fails (the bytes
differ) and returns the untouched stream. -/
theorem exact_atomic_witness :
    (exact [97] (ByteStream.wrap [98])).2 = ByteStream.wrap [98] :=
  exact_atomic_on_failure [97] (ByteStream.wrap [98])
    ((exact [97] (ByteStream.wrap [98])).2)
    (MatchError.unexpected 0 "EOF" "97") (by rfl)

theorem repeatM_isOk {α : Type} (m : Matcher α) :
    ∀ (fuel : Nat) (bs : ByteStream), ∃ l bs', repeatM m fuel bs = (Except.ok l, bs') := by
  intro fuel
  induction fuel with
  | zero => intro bs; exact ⟨[], bs, rfl⟩
  | succ k ih =>
    intro bs
    unfold repeatM
    rcases h₁ : m bs with ⟨r₁, bs₁⟩
    rcases r₁ with e | t
    · exact ⟨[], bs₁.reset bs.mark, rfl⟩
    · obtain ⟨l, bs₂, h₂⟩ := ih bs₁
      refine ⟨t :: l, bs₂, ?_⟩
      dsimp only
      rw [h₂]

/-- Claim C6: `repeat` never fails: it always returns the (in-order) list of
results of the successful iterations; a failing attempt is rewound to the
mark taken immediately before it, so it consumes no bytes.  (The rewind
equation assumes the sub-step did not itself move the position backwards,
which no matcher of the library does.) -/
theorem repeat_never_fails {α : Type} (m : Matcher α) (fuel : Nat) (bs : ByteStream) :
    (∃ l bs', repeatM m fuel bs = (Except.ok l, bs')) ∧
    (∀ e bs₁, m bs = (Except.error e, bs₁) → bs.pos ≤ bs₁.pos →
      repeatM m (fuel + 1) bs = (Except.ok [], { bs₁ with pos := bs.pos })) ∧
    (∀ t bs₁ l bs₂, m bs = (Except.ok t, bs₁) →
      repeatM m fuel bs₁ = (Except.ok l, bs₂) →
      repeatM m (fuel + 1) bs = (Except.ok (t :: l), bs₂)) := by
  refine ⟨repeatM_isOk m fuel bs, ?_, ?_⟩
  · intro e bs₁ h₁ hadv
    unfold repeatM
    rw [h₁]
    dsimp only
    unfold ByteStream.reset
    rw [if_pos (by simpa [ByteStream.mark] using hadv)]
    rfl
  · intro t bs₁ l bs₂ h₁ h₂
    unfold repeatM
    rw [h₁]
    dsimp only
    rw [h₂]

/-- Witness for C6: `single 97` fails on the buffer `[98]` after having
consumed the mismatching byte, and `repeat (single 97)` returns the empty
list with the position rewound to 0. -/
theorem repeat_never_fails_witness :
    repeatM (single 97) 1 (ByteStream.wrap [98]) =
      (Except.ok ([] : List Nat), ByteStream.wrap [98]) :=
  (repeat_never_fails (single 97) 0 (ByteStream.wrap [98])).2.1
    (MatchError.unexpected 0 "EOF" "97") ⟨[98], 1, 1⟩ (by rfl) (by decide)

/-- Claim C1 (code bug): the spec requires the class-126 extended length to
be the 16-bit big-endian value of the two following bytes — `0x00, 0xFF`
giving 255 — and the class-127 length to be the 64-bit big-endian value of
the following 8 bytes.  `build_u16`/`build_u64` in `src/ws.rs` fold with
`acc << 8 + b`, which Rust parses as `acc << (8 + b)`, so both always
return 0 (`read_u16`/`read_u64` in `src/stream.rs` compute the intended
big-endian value with explicit parentheses; in a debug build the shift
amount `8 + 0xFF` additionally panics with shift overflow).  The frame
`[0x81, 0x7E, 0x00, 0xFF]` therefore decodes with length 0, not 255. -/
theorem ws_extended_length_bug :
    build_u16 [0, 255] = 0 ∧ read_u16 [0, 255] = 255 ∧
    build_u64 [1, 2, 3, 4, 5, 6, 7, 8] = 0 ∧
    read_u64 [1, 2, 3, 4, 5, 6, 7, 8] = 72623859790382856 ∧
    (parse_frame (ByteStream.wrap [129, 126, 0, 255])).1 =
      some { fin := true, opcode := 1, len := 0, mask := none, body := [] } := by
  refine ⟨build_u16_eq_zero _, by decide, build_u64_eq_zero _, by decide, by decide⟩

/-- Claim C9: every `ByteStream` operation preserves `pos ≤ length`
(`find_single`/`find_window` do not mutate the stream at all, and the fixed
16/32-byte array reads/writes are `get`/`put` compositions covered by the
`get`/`put` conjuncts), and `reset` only ever rewinds: it moves `pos` to
`mark.pos` when `mark.pos ≤ pos`, leaves the stream unchanged otherwise, and
never advances the position. -/
theorem stream_pos_invariant (bs : ByteStream) (m : Mark) (v l : List Nat)
    (x n : Nat) (h : bs.pos ≤ bs.buf.length) :
    ((ByteStream.wrap l).pos ≤ (ByteStream.wrap l).buf.length) ∧
    ((ByteStream.with_capacity n).pos ≤ (ByteStream.with_capacity n).buf.length) ∧
    ((bs.put v).2.pos ≤ (bs.put v).2.buf.length) ∧
    ((bs.put_u8 x).2.pos ≤ (bs.put_u8 x).2.buf.length) ∧
    ((bs.put_u16 x).2.pos ≤ (bs.put_u16 x).2.buf.length) ∧
    ((bs.put_u32 x).2.pos ≤ (bs.put_u32 x).2.buf.length) ∧
    ((bs.put_u64 x).2.pos ≤ (bs.put_u64 x).2.buf.length) ∧
    ((bs.get n).2.pos ≤ (bs.get n).2.buf.length) ∧
    (bs.get_u8.2.pos ≤ bs.get_u8.2.buf.length) ∧
    (bs.get_u16.2.pos ≤ bs.get_u16.2.buf.length) ∧
    (bs.get_u32.2.pos ≤ bs.get_u32.2.buf.length) ∧
    (bs.get_u64.2.pos ≤ bs.get_u64.2.buf.length) ∧
    (bs.next.2.pos ≤ bs.next.2.buf.length) ∧
    (bs.clear.pos ≤ bs.clear.buf.length) ∧
    (bs.pull.pos ≤ bs.pull.buf.length) ∧
    ((bs.reset m).pos ≤ (bs.reset m).buf.length) ∧
    (m.pos ≤ bs.pos → (bs.reset m).pos = m.pos) ∧
    (bs.pos < m.pos → bs.reset m = bs) ∧
    ((bs.reset m).pos ≤ bs.pos) := by
  refine ⟨?_, ?_, ?_, ?_, ?_, ?_, ?_, ?_, ?_, ?_, ?_, ?_, ?_, ?_, ?_, ?_, ?_, ?_, ?_⟩
  · simp [ByteStream.wrap]
  · simp [ByteStream.with_capacity]
  · exact put_aux_inv h
  · exact put_aux_inv h
  · exact put_aux_inv h
  · exact put_aux_inv h
  · exact put_aux_inv h
  · exact get_aux_inv n h
  · exact get_aux_inv 1 h
  · exact get_aux_inv 2 h
  · exact get_aux_inv 4 h
  · exact get_aux_inv 8 h
  · exact get_aux_inv 1 h
  · simp [ByteStream.clear]
  · unfold ByteStream.pull
    split
    · simp
    · exact h
  · exact presInv_reset m h
  · intro hm
    unfold ByteStream.reset
    rw [if_pos hm]
  · intro hm
    unfold ByteStream.reset
    rw [if_neg (by omega)]
  · unfold ByteStream.reset
    split
    · dsimp only
      omega
    · exact Nat.le_refl _

/-- Witness for C9 at a concrete stream satisfying the invariant. -/
theorem stream_pos_invariant_witness :
    ((⟨[1, 2, 3], 4, 2⟩ : ByteStream).put [9]).2.pos ≤
      ((⟨[1, 2, 3], 4, 2⟩ : ByteStream).put [9]).2.buf.length ∧
    ((⟨[1, 2, 3], 4, 2⟩ : ByteStream).reset ⟨1⟩).pos = 1 ∧
    ((⟨[1, 2, 3], 4, 2⟩ : ByteStream).reset ⟨1⟩).pos ≤ 2 := by
  obtain ⟨-, -, h3, -, -, -, -, -, -, -, -, -, -, -, -, -, h17, -, h19⟩ :=
    stream_pos_invariant ⟨[1, 2, 3], 4, 2⟩ ⟨1⟩ [9] [] 0 0 (by decide)
  exact ⟨h3, h17 (by decide), h19⟩

/-- Claim C8: `before(delimiter)`: when the delimiter byte occurs at or after
the current position, the step succeeds with exactly the bytes strictly
between the position and the first occurrence, leaving the position on the
delimiter itself; when it does not occur in the remaining buffer, the step
fails with `NotFound` and the stream is unchanged.  (Rust casts the `char`
delimiter `as u8`, hence the `% 256`.) -/
theorem before_spec (chr : Nat) (bs : ByteStream) :
    ((∃ i, bs.pos ≤ i ∧ i < bs.buf.length ∧ bs.buf.getD i 0 = chr % 256) →
      ∃ i₀, bs.pos ≤ i₀ ∧ i₀ < bs.buf.length ∧ bs.buf.getD i₀ 0 = chr % 256 ∧
        (∀ j, bs.pos ≤ j → j < i₀ → bs.buf.getD j 0 ≠ chr % 256) ∧
        before chr bs =
          (Except.ok ((bs.buf.drop bs.pos).take (i₀ - bs.pos)), { bs with pos := i₀ })) ∧
    ((∀ i, bs.pos ≤ i → i < bs.buf.length → bs.buf.getD i 0 ≠ chr % 256) →
      before chr bs = (Except.error (MatchError.not_found bs.pos chr), bs)) := by
  constructor
  · rintro ⟨i, hpi, hilen, hival⟩
    rcases hfs : position (fun c => c == chr % 256) (bs.buf.drop bs.pos) with _ | k
    · exfalso
      have hall := position_eq_none.mp hfs
      have hj := hall (i - bs.pos) (by simp [List.length_drop]; omega)
      rw [getD_drop] at hj
      have : bs.pos + (i - bs.pos) = i := by omega
      rw [this, hival] at hj
      simp at hj
    · obtain ⟨hklen, hkval, hkmin⟩ := position_eq_some hfs
      rw [getD_drop] at hkval
      simp only [List.length_drop] at hklen
      refine ⟨bs.pos + k, by omega, by omega, by simpa using hkval, ?_, ?_⟩
      · intro j hj1 hj2
        have := hkmin (j - bs.pos) (by omega)
        rw [getD_drop] at this
        have heq : bs.pos + (j - bs.pos) = j := by omega
        rw [heq] at this
        simp at this
        simpa [List.getD_eq_getElem?_getD] using this
      · unfold before ByteStream.find_single
        rw [hfs]
        dsimp only [Option.map_some']
        rw [show k + bs.pos - bs.pos = k from by omega,
            show bs.pos + k - bs.pos = k from by omega,
            get_eq_of_le (show bs.pos + k ≤ bs.buf.length from by omega)]
  · intro hnone
    have hfs : position (fun c => c == chr % 256) (bs.buf.drop bs.pos) = none := by
      apply position_eq_none.mpr
      intro j hj
      simp only [List.length_drop] at hj
      rw [getD_drop]
      have := hnone (bs.pos + j) (by omega) (by omega)
      simpa using this
    unfold before ByteStream.find_single
    rw [hfs]
    rfl

/-- Witness for C8: on the buffer `"ab:"` with delimiter `':'` (58), `before`
returns the two bytes before the colon and stops on the colon. -/
theorem before_spec_witness :
    before 58 (ByteStream.wrap [97, 98, 58]) =
      (Except.ok [97, 98], { buf := [97, 98, 58], capacity := 3, pos := 2 }) := by
  obtain ⟨i₀, h1, h2, h3, h4, h5⟩ :=
    (before_spec 58 (ByteStream.wrap [97, 98, 58])).1 ⟨2, by decide, by decide, by decide⟩
  have hi : i₀ = 2 := by
    rcases Nat.lt_trichotomy i₀ 2 with hlt | heq | hgt
    · exfalso
      interval_cases i₀ <;> simp [ByteStream.wrap] at h3
    · exact heq
    · exfalso
      exact h4 2 (by decide) hgt (by decide)
  subst hi
  rw [h5]
  rfl

theorem getD_take {l : List Nat} : ∀ {n k : Nat}, k < n → (l.take n).getD k 0 = l.getD k 0 := by
  induction l with
  | nil => intro n k _; simp
  | cons a l ih =>
    intro n k hk
    cases n with
    | zero => omega
    | succ m =>
      cases k with
      | zero => simp
      | succ j =>
        simp only [List.take_succ_cons, List.getD_cons_succ]
        exact ih (by omega)

theorem frame_opts_ok {bs bs₁ : ByteStream} {opts : FrameOpts}
    (h : frame_opts bs = (Except.ok opts, bs₁)) :
    bs.pos + 2 ≤ bs.buf.length ∧ opts = FrameOpts.new ((bs.buf.drop bs.pos).take 2) ∧
      bs₁ = { bs with pos := bs.pos + 2 } := by
  obtain ⟨w, hw, hopts⟩ := mapM_ok h
  obtain ⟨hle, hv, hlen, hbs⟩ := bytes_ok hw
  exact ⟨hle, by rw [hopts, hv], hbs⟩

theorem unitM_ok {α : Type} {f : Unit → α} {bs bs₁ : ByteStream} {t : α}
    (h : unitM f bs = (Except.ok t, bs₁)) : t = f () ∧ bs₁ = bs := by
  unfold unitM at h
  simp only [Prod.mk.injEq, Except.ok.injEq] at h
  exact ⟨h.1.symm, h.2.symm⟩

theorem frameLenStep_ok {opts : FrameOpts} {bs bsB : ByteStream} {L : Nat}
    (h : frameLenStep opts bs = (Except.ok L, bsB)) :
    bsB.buf = bs.buf ∧ bsB.capacity = bs.capacity ∧ bsB.pos = bs.pos + extLen opts.len := by
  unfold frameLenStep at h
  unfold extLen
  by_cases h127 : opts.len == 127
  · rw [if_pos h127] at h
    rw [if_pos h127]
    obtain ⟨p, hp, hL⟩ := mapM_ok h
    obtain ⟨bsu, hu, hb⟩ := thenM_ok hp
    obtain ⟨_, hbs⟩ := unitM_ok hu
    subst hbs
    obtain ⟨hle, _, _, hbsB⟩ := bytes_ok hb
    rw [hbsB]
    exact ⟨rfl, rfl, rfl⟩
  · rw [if_neg (by simpa using h127)] at h
    rw [if_neg (by simpa using h127)]
    by_cases h126 : opts.len == 126
    · rw [if_pos h126] at h
      rw [if_pos h126]
      obtain ⟨p, hp, hL⟩ := mapM_ok h
      obtain ⟨bsu, hu, hb⟩ := thenM_ok hp
      obtain ⟨_, hbs⟩ := unitM_ok hu
      subst hbs
      obtain ⟨hle, _, _, hbsB⟩ := bytes_ok hb
      rw [hbsB]
      exact ⟨rfl, rfl, rfl⟩
    · rw [if_neg (by simpa using h126)] at h
      rw [if_neg (by simpa using h126)]
      obtain ⟨u, hu, hL⟩ := mapM_ok h
      obtain ⟨_, hbs⟩ := unitM_ok hu
      subst hbs
      exact ⟨rfl, rfl, by omega⟩

theorem frameBase_ok {opts : FrameOpts} {bs bsB : ByteStream} {fb : Frame}
    (h : frameBase opts bs = (Except.ok fb, bsB)) :
    fb.mask = none ∧ fb.body = [] ∧ bsB.buf = bs.buf ∧ bsB.capacity = bs.capacity ∧
      bsB.pos = bs.pos + extLen opts.len := by
  obtain ⟨L, hL, hfb⟩ := mapM_ok h
  obtain ⟨h1, h2, h3⟩ := frameLenStep_ok hL
  rw [hfb]
  exact ⟨rfl, rfl, h1, h2, h3⟩

theorem frameMaskStep_ok {opts : FrameOpts} {bs bsM : ByteStream} {f₀ : Frame}
    (h : frameMaskStep opts bs = (Except.ok f₀, bsM)) :
    f₀.body = [] ∧ bsM.buf = bs.buf ∧
      (opts.mask = true →
        f₀.mask = some [bs.buf.getD (bs.pos + extLen opts.len) 0,
                        bs.buf.getD (bs.pos + extLen opts.len + 1) 0,
                        bs.buf.getD (bs.pos + extLen opts.len + 2) 0,
                        bs.buf.getD (bs.pos + extLen opts.len + 3) 0] ∧
        bsM.pos = bs.pos + extLen opts.len + 4) ∧
      (opts.mask = false →
        f₀.mask = none ∧ bsM.pos = bs.pos + extLen opts.len) := by
  unfold frameMaskStep at h
  cases hm : opts.mask with
  | false =>
    rw [hm] at h
    simp only [Bool.false_eq_true, if_false] at h
    obtain ⟨h1, h2, h3, _, h5⟩ := frameBase_ok h
    exact ⟨h2, h3, by simp [hm], fun _ => ⟨h1, h5⟩⟩
  | true =>
    rw [hm] at h
    simp only [if_true] at h
    obtain ⟨fb, mv, hth, hf₀⟩ := saveM_ok h
    obtain ⟨bsB, hbase, hmv⟩ := thenM_ok hth
    obtain ⟨hmask0, hbody0, hbuf, hcap, hposB⟩ := frameBase_ok hbase
    obtain ⟨hle4, hmveq, hmvlen, hbsM⟩ := bytes_ok hmv
    have hgd : ∀ i, i < 4 → mv.getD i 0 = bs.buf.getD (bs.pos + extLen opts.len + i) 0 := by
      intro i hi
      rw [hmveq, getD_take hi, getD_drop, hposB, hbuf]
    refine ⟨by rw [hf₀]; exact hbody0, by rw [hbsM]; exact hbuf, ?_, by simp [hm]⟩
    intro _
    constructor
    · rw [hf₀]
      dsimp only
      rw [hgd 0 (by omega), hgd 1 (by omega), hgd 2 (by omega), hgd 3 (by omega)]
      rw [show bs.pos + extLen opts.len + 0 = bs.pos + extLen opts.len from by omega]
    · rw [hbsM]
      dsimp only
      rw [hposB]

/-- Claim C7: for every byte sequence accepted by `parse_frame`, the mask is
present exactly when the most significant bit of the second byte is set; when
present it is the 4 bytes immediately after the length fields (2 header bytes
plus the 8-, 2- or 0-byte extended length selected by the 7-bit length
class); and the body is exactly `len` bytes stored as received from the
buffer — no unmasking is applied during parsing. -/
theorem parse_frame_mask_spec (l : List Nat) (f : Frame) (bs' : ByteStream)
    (h : parse_frame (ByteStream.wrap l) = (some f, bs')) :
    (f.mask.isSome ↔ 0 < l.getD 1 0 >>> 7) ∧
    (0 < l.getD 1 0 >>> 7 →
      f.mask = some [l.getD (2 + extLen (127 &&& l.getD 1 0)) 0,
                     l.getD (3 + extLen (127 &&& l.getD 1 0)) 0,
                     l.getD (4 + extLen (127 &&& l.getD 1 0)) 0,
                     l.getD (5 + extLen (127 &&& l.getD 1 0)) 0]) ∧
    f.body = (l.drop (2 + extLen (127 &&& l.getD 1 0) +
      (if 0 < l.getD 1 0 >>> 7 then 4 else 0))).take f.len ∧
    f.body.length = f.len := by
  unfold parse_frame at h
  rcases hfo : frame_opts (ByteStream.wrap l) with ⟨rfo, bs₁⟩
  rw [hfo] at h
  rcases rfo with e | opts
  · simp at h
  dsimp only at h
  rcases hp4 : saveM (thenWithM (frameMaskStep opts) (fun fr => bytes fr.len))
      (fun fr v => { fr with body := v }) bs₁ with ⟨r4, bs₂⟩
  rw [hp4] at h
  rcases r4 with e | f4
  · simp at h
  simp only [Prod.mk.injEq, Option.some.injEq] at h
  obtain ⟨hf, hbs2⟩ := h
  subst hf
  obtain ⟨hle2, hopts, hbs₁⟩ := frame_opts_ok hfo
  have hbuf₁ : bs₁.buf = l := by rw [hbs₁]; rfl
  have hpos₁ : bs₁.pos = 2 := by rw [hbs₁]; rfl
  have hmaskeq : opts.mask = decide (0 < l.getD 1 0 >>> 7) := by
    rw [hopts]
    unfold FrameOpts.new
    dsimp only
    rw [show (ByteStream.wrap l).buf = l from rfl, show (ByteStream.wrap l).pos = 0 from rfl,
        List.drop_zero, getD_take (by omega)]
  have hleneq : opts.len = 127 &&& l.getD 1 0 := by
    rw [hopts]
    unfold FrameOpts.new
    dsimp only
    rw [show (ByteStream.wrap l).buf = l from rfl, show (ByteStream.wrap l).pos = 0 from rfl,
        List.drop_zero, getD_take (by omega)]
  obtain ⟨f₀, v, hth, hfeq⟩ := saveM_ok hp4
  obtain ⟨bsM, hms, hbody⟩ := thenWithM_ok hth
  obtain ⟨hbody0, hbufM, htrue, hfalse⟩ := frameMaskStep_ok hms
  obtain ⟨hleb, hveq, hvlen, -⟩ := bytes_ok hbody
  have hfmask : f4.mask = f₀.mask := by rw [hfeq]
  have hflen : f4.len = f₀.len := by rw [hfeq]
  have hfbody : f4.body = v := by rw [hfeq]
  cases hdm : (decide (0 < l.getD 1 0 >>> 7)) with
  | true =>
    have hprop : 0 < l.getD 1 0 >>> 7 := of_decide_eq_true hdm
    have homask : opts.mask = true := by rw [hmaskeq, hdm]
    obtain ⟨hmval, hposM⟩ := htrue homask
    refine ⟨?_, ?_, ?_, ?_⟩
    · rw [hfmask, hmval]
      exact iff_of_true rfl hprop
    · intro _
      rw [hfmask, hmval, hbuf₁, hpos₁, hleneq]
      rw [show 2 + extLen (127 &&& l.getD 1 0) + 1 = 3 + extLen (127 &&& l.getD 1 0) from
            by omega,
          show 2 + extLen (127 &&& l.getD 1 0) + 2 = 4 + extLen (127 &&& l.getD 1 0) from
            by omega,
          show 2 + extLen (127 &&& l.getD 1 0) + 3 = 5 + extLen (127 &&& l.getD 1 0) from
            by omega]
    · rw [hfbody, hveq, hbufM, hbuf₁, hposM, hpos₁, hleneq, if_pos hprop, hflen]
    · rw [hfbody, hvlen, hflen]
  | false =>
    have hprop : ¬ (0 < l.getD 1 0 >>> 7) := of_decide_eq_false hdm
    have homask : opts.mask = false := by rw [hmaskeq, hdm]
    obtain ⟨hmval, hposM⟩ := hfalse homask
    refine ⟨?_, ?_, ?_, ?_⟩
    · rw [hfmask, hmval]
      exact iff_of_false (by simp) hprop
    · intro hcon
      exact absurd hcon hprop
    · rw [hfbody, hveq, hbufM, hbuf₁, hposM, hpos₁, hleneq, if_neg hprop, Nat.add_zero,
          hflen]
    · rw [hfbody, hvlen, hflen]

/-- Witness for C7 on the `frame1` test vector `[0x89, 0x87, 1, 2, 3, 4,
10..16]`: mask flag set, mask `[1,2,3,4]`, 7 raw body bytes. -/
theorem parse_frame_mask_witness :
    demoFrame.mask = some [1, 2, 3, 4] ∧ demoFrame.body.length = demoFrame.len := by
  have h := parse_frame_mask_spec [137, 135, 1, 2, 3, 4, 10, 11, 12, 13, 14, 15, 16]
    demoFrame ⟨[137, 135, 1, 2, 3, 4, 10, 11, 12, 13, 14, 15, 16], 13, 13⟩ (by rfl)
  constructor
  · rw [h.2.1 (by decide)]
    decide
  · exact h.2.2.2

theorem mapM_eq_ok {α β : Type} {m : Matcher α} {f : α → β} {bs bs₁ : ByteStream} {t : α}
    (h : m bs = (Except.ok t, bs₁)) : mapM m f bs = (Except.ok (f t), bs₁) := by
  unfold mapM
  rw [h]

theorem thenM_eq_ok {α β : Type} {m : Matcher α} {n : Matcher β} {bs bs₁ bs₂ : ByteStream}
    {t : α} {u : β} (h1 : m bs = (Except.ok t, bs₁)) (h2 : n bs₁ = (Except.ok u, bs₂)) :
    thenM m n bs = (Except.ok (t, u), bs₂) := by
  unfold thenM
  rw [h1]
  dsimp only
  rw [h2]

theorem thenWithM_eq_ok {α β : Type} {m : Matcher α} {f : α → Matcher β}
    {bs bs₁ bs₂ : ByteStream} {t : α} {u : β}
    (h1 : m bs = (Except.ok t, bs₁)) (h2 : f t bs₁ = (Except.ok u, bs₂)) :
    thenWithM m f bs = (Except.ok (t, u), bs₂) := by
  unfold thenWithM
  rw [h1]
  dsimp only
  rw [h2]

theorem saveM_eq_ok {α β : Type} {m : Matcher (α × β)} {g : α → β → α}
    {bs bs₁ : ByteStream} {t : α} {u : β} (h : m bs = (Except.ok (t, u), bs₁)) :
    saveM m g bs = (Except.ok (g t u), bs₁) := by
  unfold saveM
  rw [h]

theorem skipM_eq_ok {α β : Type} {m : Matcher (α × β)} {bs bs₁ : ByteStream}
    {t : α} {u : β} (h : m bs = (Except.ok (t, u), bs₁)) :
    skipM m bs = (Except.ok t, bs₁) := by
  unfold skipM
  rw [h]

theorem and_fifteen (x : Nat) : 15 &&& x = x % 16 := by
  rw [Nat.and_comm]
  simpa using Nat.and_pow_two_sub_one_eq_mod x 4

theorem and_onetwentyseven (x : Nat) : 127 &&& x = x % 128 := by
  rw [Nat.and_comm]
  simpa using Nat.and_pow_two_sub_one_eq_mod x 7

theorem shr7 (x : Nat) : x >>> 7 = x / 128 := by
  simpa using Nat.shiftRight_eq_div_pow x 7

theorem put_eq_of_le {bs : ByteStream} {v : List Nat} (h : v.length ≤ bs.cap) :
    bs.put v = (v.length, { bs with buf := bs.buf ++ v }) := by
  unfold ByteStream.put
  rw [if_pos h]

theorem frame_encode_eq (f : Frame) (hl : f.body.length ≤ 125) :
    frame_encode f =
      ((((if f.fin then 1 else 0) <<< 7) + f.opcode) % 256) :: f.body.length :: f.body := by
  have hmod : f.body.length % 256 = f.body.length := Nat.mod_eq_of_lt (by omega)
  have h1 : (ByteStream.with_capacity (f.body.length + 26)).put
      [(((if f.fin then 1 else 0) <<< 7) + f.opcode) % 256] =
      (1, { buf := [(((if f.fin then 1 else 0) <<< 7) + f.opcode) % 256],
            capacity := f.body.length + 26, pos := 0 }) := by
    rw [put_eq_of_le (by simp [ByteStream.with_capacity, ByteStream.cap])]
    rfl
  have h2 : ({ buf := [(((if f.fin then 1 else 0) <<< 7) + f.opcode) % 256],
               capacity := f.body.length + 26, pos := 0 } : ByteStream).put
      [f.body.length % 256] =
      (1, { buf := [(((if f.fin then 1 else 0) <<< 7) + f.opcode) % 256,
                    f.body.length % 256],
            capacity := f.body.length + 26, pos := 0 }) := by
    rw [put_eq_of_le (by simp [ByteStream.cap])]
    rfl
  have h3 : ({ buf := [(((if f.fin then 1 else 0) <<< 7) + f.opcode) % 256,
                       f.body.length % 256],
               capacity := f.body.length + 26, pos := 0 } : ByteStream).put
      f.body =
      (f.body.length,
       { buf := (((if f.fin then 1 else 0) <<< 7) + f.opcode) % 256 ::
           f.body.length % 256 :: f.body,
         capacity := f.body.length + 26, pos := 0 }) := by
    rw [put_eq_of_le (by simp [ByteStream.cap])]
    rfl
  unfold frame_encode
  dsimp only
  rw [if_pos hl, h1]
  dsimp only
  rw [h2]
  dsimp only
  rw [h3]
  unfold ByteStream.as_ref
  dsimp only
  rw [hmod]
  rfl

theorem frameOpts_new_of_small (fin : Bool) (op L : Nat) (ho : op < 16) (hl : L ≤ 125) :
    FrameOpts.new [(if fin then 128 else 0) + op, L] =
      { fin := fin, code := op, len := L, mask := false } := by
  unfold FrameOpts.new
  have h0 : [(if fin then 128 else 0) + op, L].getD 0 0 = (if fin then 128 else 0) + op := rfl
  have h1 : [(if fin then 128 else 0) + op, L].getD 1 0 = L := rfl
  rw [h0, h1, shr7, shr7, and_fifteen, and_onetwentyseven]
  simp only [FrameOpts.mk.injEq]
  refine ⟨?_, ?_, ?_, ?_⟩
  · cases fin <;> simp <;> omega
  · cases fin <;> simp <;> omega
  · omega
  · simp
    omega

/-- Claim C3 counterexample: `cexFrame` has `mask = none`, body length ≤ 125
and a 4-bit opcode, yet encoding and decoding it yields a frame whose `len`
is 0, not `cexFrame.len = 5` — the encoder writes `body.len()`, ignoring the
`len` field, so the round trip as claimed fails when the two disagree. -/
theorem frame_roundtrip_counterexample :
    cexFrame.mask = none ∧ cexFrame.body.length ≤ 125 ∧ cexFrame.opcode < 16 ∧
    (parse_frame (ByteStream.wrap (frame_encode cexFrame))).1 =
      some { fin := true, opcode := 1, len := 0, mask := none, body := [] } ∧
    (0 : Nat) ≠ cexFrame.len := by
  refine ⟨by decide, by decide, by decide, by decide, by decide⟩

theorem parse_frame_small (fin : Bool) (op L : Nat) (body : List Nat) (cap : Nat)
    (ho : op < 16) (hL : L = body.length) (hl : L ≤ 125) :
    parse_frame ⟨((if fin then 128 else 0) + op) :: L :: body, cap, 0⟩ =
      (some ⟨fin, op, L, none, body⟩,
       ⟨((if fin then 128 else 0) + op) :: L :: body, cap, 2 + L⟩) := by
  have hbytes2 : bytes 2 (⟨((if fin then 128 else 0) + op) :: L :: body, cap, 0⟩ :
      ByteStream) =
      (Except.ok [(if fin then 128 else 0) + op, L],
       ⟨((if fin then 128 else 0) + op) :: L :: body, cap, 2⟩) := by
    rw [bytes_eq_ok (by simp)]
    rfl
  have hopts : frame_opts (⟨((if fin then 128 else 0) + op) :: L :: body, cap, 0⟩ :
      ByteStream) =
      (Except.ok (FrameOpts.new [(if fin then 128 else 0) + op, L]),
       ⟨((if fin then 128 else 0) + op) :: L :: body, cap, 2⟩) := by
    unfold frame_opts
    exact mapM_eq_ok hbytes2
  rw [frameOpts_new_of_small fin op L ho hl] at hopts
  have hlenstep : frameLenStep ⟨fin, op, L, false⟩
      ⟨((if fin then 128 else 0) + op) :: L :: body, cap, 2⟩ =
      (Except.ok L, ⟨((if fin then 128 else 0) + op) :: L :: body, cap, 2⟩) := by
    unfold frameLenStep
    rw [if_neg (by simp; omega), if_neg (by simp; omega)]
    rfl
  have hbase : frameBase ⟨fin, op, L, false⟩
      ⟨((if fin then 128 else 0) + op) :: L :: body, cap, 2⟩ =
      (Except.ok ⟨fin, op, L, none, []⟩,
       ⟨((if fin then 128 else 0) + op) :: L :: body, cap, 2⟩) := by
    unfold frameBase
    exact mapM_eq_ok hlenstep
  have hmaskstep : frameMaskStep ⟨fin, op, L, false⟩
      ⟨((if fin then 128 else 0) + op) :: L :: body, cap, 2⟩ =
      (Except.ok ⟨fin, op, L, none, []⟩,
       ⟨((if fin then 128 else 0) + op) :: L :: body, cap, 2⟩) := by
    unfold frameMaskStep
    simp only [Bool.false_eq_true, if_false]
    exact hbase
  have hbytesL : bytes ((⟨fin, op, L, none, []⟩ : Frame).len)
      ⟨((if fin then 128 else 0) + op) :: L :: body, cap, 2⟩ =
      (Except.ok body,
       ⟨((if fin then 128 else 0) + op) :: L :: body, cap, 2 + L⟩) := by
    rw [bytes_eq_ok (by simp; omega)]
    subst hL
    simp [List.take_length]
  have hthw : thenWithM (frameMaskStep ⟨fin, op, L, false⟩) (fun fr => bytes fr.len)
      ⟨((if fin then 128 else 0) + op) :: L :: body, cap, 0 + 2⟩ =
      (Except.ok (⟨fin, op, L, none, []⟩, body),
       ⟨((if fin then 128 else 0) + op) :: L :: body, cap, 2 + L⟩) :=
    thenWithM_eq_ok hmaskstep hbytesL
  have hsave : saveM (thenWithM (frameMaskStep ⟨fin, op, L, false⟩) (fun fr => bytes fr.len))
      (fun fr v => { fr with body := v })
      ⟨((if fin then 128 else 0) + op) :: L :: body, cap, 0 + 2⟩ =
      (Except.ok ⟨fin, op, L, none, body⟩,
       ⟨((if fin then 128 else 0) + op) :: L :: body, cap, 2 + L⟩) :=
    saveM_eq_ok hthw
  unfold parse_frame
  rw [hopts]
  dsimp only
  rw [hsave]

/-- Claim C3 (amended): for every `Frame` with `mask = none`, body length at
most 125, a 4-bit opcode, **and `len` equal to the body length** (the encoder
writes the body length, not the `len` field), encoding then decoding yields a
frame with the same `fin`, `opcode`, `len` and `body`. -/
theorem frame_roundtrip_amended (f : Frame) (hm : f.mask = none)
    (hl : f.body.length ≤ 125) (ho : f.opcode < 16) (hlen : f.len = f.body.length) :
    ∃ g bs', parse_frame (ByteStream.wrap (frame_encode f)) = (some g, bs') ∧
      g.fin = f.fin ∧ g.opcode = f.opcode ∧ g.len = f.len ∧ g.body = f.body := by
  have hshift : ((if f.fin then 1 else 0) <<< 7) = (if f.fin then 128 else 0 : Nat) := by
    cases f.fin <;> rfl
  have hb1lt : (if f.fin then 128 else 0 : Nat) + f.opcode < 256 := by
    cases f.fin <;> simp <;> omega
  have henc : frame_encode f =
      ((if f.fin then 128 else 0) + f.opcode) :: f.body.length :: f.body := by
    rw [frame_encode_eq f hl, hshift, Nat.mod_eq_of_lt hb1lt]
  have hwrap : ByteStream.wrap (frame_encode f) =
      ⟨((if f.fin then 128 else 0) + f.opcode) :: f.body.length :: f.body,
       (frame_encode f).length, 0⟩ := by
    unfold ByteStream.wrap
    rw [henc]
  have hparse := parse_frame_small f.fin f.opcode f.body.length f.body
    (frame_encode f).length ho rfl hl
  refine ⟨⟨f.fin, f.opcode, f.body.length, none, f.body⟩,
    ⟨((if f.fin then 128 else 0) + f.opcode) :: f.body.length :: f.body,
     (frame_encode f).length, 2 + f.body.length⟩, ?_, rfl, rfl, hlen.symm, rfl⟩
  rw [hwrap]
  exact hparse

/-- Witness for the amended C3 at the concrete text frame with body "ab". -/
theorem frame_roundtrip_witness :
    ∃ g bs',
      parse_frame (ByteStream.wrap (frame_encode
        { fin := true, opcode := 1, len := 2, mask := none, body := [97, 98] })) =
        (some g, bs') ∧
      g.fin = true ∧ g.opcode = 1 ∧ g.len = 2 ∧ g.body = [97, 98] :=
  frame_roundtrip_amended
    { fin := true, opcode := 1, len := 2, mask := none, body := [97, 98] }
    (by decide) (by decide) (by decide) (by decide)

/-- Claim C2: for every HTTP request accepted by `parse_http_request`, the
returned content's length is the value of the first `Content-Length` header
parsed as an unsigned integer, and 0 when that header is absent or its value
fails to parse; and a missing or unparseable `Content-Length` is never by
itself a parse failure (after a successful head parse, the body step with
the collapsed length 0 always succeeds). -/
theorem http_content_length_spec (l : List Nat) :
    (∀ req bs', parse_http_request (ByteStream.wrap l) = (some req, bs') →
      (∀ s n, get_header_value req "Content-Length" = some s → parseUsize s = some n →
        req.content.length = n) ∧
      (get_header_value req "Content-Length" = none → req.content.length = 0) ∧
      (∀ s, get_header_value req "Content-Length" = some s → parseUsize s = none →
        req.content.length = 0)) ∧
    (∀ r bs₁, request_head (l.length + 1) (ByteStream.wrap l) = (Except.ok r, bs₁) →
      (get_header_value r "Content-Length" = none ∨
        ∃ s, get_header_value r "Content-Length" = some s ∧ parseUsize s = none) →
      ∃ req bs₂, parse_http_request (ByteStream.wrap l) = (some req, bs₂)) := by
  constructor
  · intro req bs' h
    unfold parse_http_request at h
    rcases hr : requestMatcher ((ByteStream.wrap l).buf.length + 1) (ByteStream.wrap l)
      with ⟨rr, bsr⟩
    rw [hr] at h
    rcases rr with e | r
    · simp at h
    · dsimp only at h
      simp only [Prod.mk.injEq, Option.some.injEq] at h
      obtain ⟨hreq, hbs⟩ := h
      subst hreq
      obtain ⟨a, c, hth, hreqeq⟩ := saveM_ok hr
      obtain ⟨bs₁, hhead, hbytes⟩ := thenWithM_ok hth
      obtain ⟨hle, hceq, hclen, hbs2⟩ := bytes_ok hbytes
      subst hreqeq
      refine ⟨?_, ?_, ?_⟩
      · intro s n hs hn
        have hghv : get_header_value a "Content-Length" = some s := hs
        have hval : (get_content_length a).getD 0 = n := by
          unfold get_content_length
          rw [hghv]
          simp [hn]
        show c.length = n
        rw [hclen, hval]
      · intro hnone
        have hghv : get_header_value a "Content-Length" = none := hnone
        have hval : (get_content_length a).getD 0 = 0 := by
          unfold get_content_length
          rw [hghv]
          rfl
        show c.length = 0
        rw [hclen, hval]
      · intro s hs hp
        have hghv : get_header_value a "Content-Length" = some s := hs
        have hval : (get_content_length a).getD 0 = 0 := by
          unfold get_content_length
          rw [hghv]
          simp [hp]
        show c.length = 0
        rw [hclen, hval]
  · intro r bs₁ hhead hbad
    have hhead' : request_head ((ByteStream.wrap l).buf.length + 1) (ByteStream.wrap l) =
        (Except.ok r, bs₁) := hhead
    have hinv : bs₁.pos ≤ bs₁.buf.length :=
      presInv_request_head _ _ _ _ hhead' (by simp [ByteStream.wrap])
    have hCL0 : (get_content_length r).getD 0 = 0 := by
      rcases hbad with hnone | ⟨s, hs, hp⟩
      · unfold get_content_length
        rw [hnone]
        rfl
      · unfold get_content_length
        rw [hs]
        simp [hp]
    have hbytes0 : bytes ((get_content_length r).getD 0) bs₁ =
        (Except.ok ((bs₁.buf.drop bs₁.pos).take ((get_content_length r).getD 0)),
         { bs₁ with pos := bs₁.pos + (get_content_length r).getD 0 }) :=
      bytes_eq_ok (by rw [hCL0]; omega)
    have hthw : thenWithM (request_head ((ByteStream.wrap l).buf.length + 1))
        (fun rq => bytes ((get_content_length rq).getD 0)) (ByteStream.wrap l) =
        (Except.ok (r, (bs₁.buf.drop bs₁.pos).take ((get_content_length r).getD 0)),
         { bs₁ with pos := bs₁.pos + (get_content_length r).getD 0 }) :=
      thenWithM_eq_ok hhead' hbytes0
    have hsave : requestMatcher ((ByteStream.wrap l).buf.length + 1) (ByteStream.wrap l) =
        (Except.ok { r with content :=
            (bs₁.buf.drop bs₁.pos).take ((get_content_length r).getD 0) },
         { bs₁ with pos := bs₁.pos + (get_content_length r).getD 0 }) := by
      unfold requestMatcher
      exact saveM_eq_ok hthw
    refine ⟨{ r with content :=
        (bs₁.buf.drop bs₁.pos).take ((get_content_length r).getD 0) },
      { bs₁ with pos := bs₁.pos + (get_content_length r).getD 0 }, ?_⟩
    unfold parse_http_request
    rw [hsave]

/-- Witness for C2: on `"A B C\r\nContent-Length: 3\r\n\r\nabc"` the accepted
request's content has length 3 (the parsed header value), and on
`"A B C\r\n\r\n"` (no `Content-Length`) the parse still succeeds. -/
theorem http_content_length_witness :
    demoReq.content.length = 3 ∧
    (∃ req bs₂, parse_http_request (ByteStream.wrap demoBytes2) = (some req, bs₂)) := by
  constructor
  · exact ((http_content_length_spec demoBytes).1 demoReq
      ⟨demoBytes, 31, 31⟩ (by rfl)).1 "3" 3 (by rfl) (by rfl)
  · exact (http_content_length_spec demoBytes2).2
      ⟨"A", "B", "C", [], []⟩ ⟨demoBytes2, 9, 9⟩ (by rfl) (Or.inl (by rfl))

end Parsed
